import Mathlib

/-!
Shallow embedding of `src/ECC.py`: elliptic-curve arithmetic over a prime
field, ElGamal encryption on curve points, and the Koblitz text encoding.
Python integers are modelled as `Int`; Python `%` and `//` on a positive
modulus agree with `Int.emod` and `Int.ediv`.  Loops are modelled as
structural recursion on an explicit fuel that dominates the number of
iterations the Python loop performs, so that every function evaluates by
kernel reduction.
-/

/-- One step state of the extended-GCD loop in `egcd`.  The Python loop
`while b > 0: q, r = divmod(a, b); a, b = b, r; s0, s1, t0, t1 = s1, s0 - q*s1, t1, t0 - q*t1`
runs at most `b.toNat` times because `b` strictly decreases and stays
non-negative, so fuel `b.toNat + 1` never runs out while `0 < b`. -/
def egcdGo : Nat → Int → Int → Int → Int → Int → Int → Int × Int × Int
  | 0, a, _b, s0, _s1, t0, _t1 => (s0, t0, a)
  | fuel + 1, a, b, s0, s1, t0, t1 =>
    if 0 < b then
      egcdGo fuel b (a % b) s1 (s0 - a / b * s1) t1 (t0 - a / b * t1)
    else (s0, t0, a)

/-- `egcd(a, b)` returns `(s, t, g)` with `a*s + b*t = g`. -/
def egcd (a b : Int) : Int × Int × Int :=
  egcdGo (b.toNat + 1) a b 1 0 0 1

/-- `inv(n, q) = egcd(n, q)[0] % q`. -/
def inv (n q : Int) : Int :=
  (egcd n q).1 % q

/-- `sqrt(n, q)` scans `i = 1, .., q-1` and returns the first `(i, q - i)`
with `i*i % q == n`, or fails. -/
def sqrt (n q : Int) : Option (Int × Int) :=
  ((List.range' 1 (q - 1).toNat).find? (fun (i : ℕ) => (i : Int) * (i : Int) % q == n)).map
    (fun (i : ℕ) => ((i : Int), q - (i : Int)))

/-- A curve point as the Python `Coord` namedtuple. -/
structure Coord where
  x : Int
  y : Int
deriving DecidableEq

/-- The curve parameters `(a, b, q)` of `y^2 = x^3 + a*x + b (mod q)`. -/
structure EC where
  a : Int
  b : Int
  q : Int
deriving DecidableEq

/-- The distinguished identity representation `Coord(0, 0)`. -/
def EC.zero (_ec : EC) : Coord := ⟨0, 0⟩

/-- `is_valid(p)`: `p == zero` or `y^2 % q == (x^3 + a*x + b) % q`. -/
def EC.is_valid (ec : EC) (p : Coord) : Bool :=
  if p = ec.zero then true
  else decide (p.y ^ 2 % ec.q = (p.x ^ 3 + ec.a * p.x + ec.b) % ec.q)

/-- `at(x)`: the two points `((x, y), (x, q - y))` from `sqrt(ysq, q)`
where `ysq = (x^3 + a*x + b) % q`, or failure. -/
def EC.pointAt (ec : EC) (x : Int) : Option (Coord × Coord) :=
  (sqrt ((x ^ 3 + ec.a * x + ec.b) % ec.q) ec.q).map
    (fun yy => (⟨x, yy.1⟩, ⟨x, yy.2⟩))

/-- `neg(p) = Coord(p.x, -p.y % q)`. -/
def EC.neg (ec : EC) (p : Coord) : Coord :=
  ⟨p.x, -p.y % ec.q⟩

/-- `add(p1, p2)`: the chord-and-tangent group law of the source. -/
def EC.add (ec : EC) (p1 p2 : Coord) : Coord :=
  if p1 = ec.zero then p2
  else if p2 = ec.zero then p1
  else if p1.x = p2.x ∧ (p1.y ≠ p2.y ∨ p1.y = 0) then ec.zero
  else
    let l :=
      if p1.x = p2.x then
        (3 * p1.x * p1.x + ec.a) * inv (2 * p1.y) ec.q % ec.q
      else
        (p2.y - p1.y) * inv (p2.x - p1.x) ec.q % ec.q
    let x := (l * l - p1.x - p2.x) % ec.q
    let y := (l * (p1.x - x) - p1.y) % ec.q
    ⟨x, y⟩

/-- Loop body of `mul`.  The Python loop `while 0 < n` halves `n` each
iteration, so it runs at most `n.toNat` times and fuel `n.toNat` suffices
(upon exhaustion `n` is already `0`). -/
def mulGo (ec : EC) : Nat → Coord → Coord → Int → Coord
  | 0, r, _m2, _n => r
  | fuel + 1, r, m2, n =>
    if 0 < n then
      mulGo ec fuel (if n % 2 = 1 then ec.add r m2 else r) (ec.add m2 m2) (n / 2)
    else r

/-- `mul(p, n)`: double-and-add scalar multiplication. -/
def EC.mul (ec : EC) (p : Coord) (n : Int) : Coord :=
  mulGo ec n.toNat ec.zero p n

/-- `order(g)`: the first `i` in `1, .., q` with `mul(g, i) == zero`,
or failure. -/
def EC.order (ec : EC) (g : Coord) : Option Int :=
  ((List.range' 1 ec.q.toNat).find? (fun (i : ℕ) => ec.mul g (i : Int) == ec.zero)).map
    (fun (i : ℕ) => (i : Int))

/-- The ElGamal cipher owns the curve and the base point `g`. -/
structure ElGamal where
  ec : EC
  g : Coord
deriving DecidableEq

/-- The eagerly computed `n = ec.order(g)` of the cipher constructor. -/
def ElGamal.n (eg : ElGamal) : Option Int :=
  eg.ec.order eg.g

/-- `gen(priv) = ec.mul(g, priv)`. -/
def ElGamal.gen (eg : ElGamal) (priv : Int) : Coord :=
  eg.ec.mul eg.g priv

/-- `enc(plain, pub, r)`: masking-only variant returning just `c2`. -/
def ElGamal.enc (eg : ElGamal) (plain pub : Coord) (r : Int) : Coord :=
  eg.ec.add plain (eg.ec.mul pub r)

/-- `enc2(plain, pub, r) = (mul(g, r), add(plain, mul(pub, r)))`. -/
def ElGamal.enc2 (eg : ElGamal) (plain pub : Coord) (r : Int) : Coord × Coord :=
  (eg.ec.mul eg.g r, eg.ec.add plain (eg.ec.mul pub r))

/-- `dec((c1, c2), priv) = add(c2, neg(mul(c1, priv)))`. -/
def ElGamal.dec (eg : ElGamal) (cipher : Coord × Coord) (priv : Int) : Coord :=
  eg.ec.add cipher.2 (eg.ec.neg (eg.ec.mul cipher.1 priv))

/-- `map_to_point_koblitz(m, ec)`: first `j` in `1, .., 19` for which
`ec.at((m*20 + j) % q)` succeeds; `None` when every `j` fails. -/
def map_to_point_koblitz (m : Int) (ec : EC) : Option Coord :=
  (List.range' 1 19).findSome?
    (fun (j : ℕ) => (ec.pointAt ((m * 20 + (j : Int)) % ec.q)).map (fun p1 => p1.1))

/-- `map_to_points_koblitz(message, ec)`: per-character Koblitz encoding;
a failed character contributes `None` to the list. -/
def map_to_points_koblitz (message : List Int) (ec : EC) : List (Option Coord) :=
  message.map (fun c => map_to_point_koblitz c ec)

/-- Python `round(x / 20)` on an exact value: floor division with
round-half-to-even at the midpoint. -/
def roundDiv20 (x : Int) : Int :=
  if x % 20 < 10 then x / 20
  else if 10 < x % 20 then x / 20 + 1
  else if x / 20 % 2 = 0 then x / 20 else x / 20 + 1

/-- `map_to_chars(points)`: decode each x-coordinate via `round(x/20)`
and concatenate the characters. -/
def map_to_chars (xs : List Int) : String :=
  ⟨xs.map (fun x => Char.ofNat (roundDiv20 x).toNat)⟩

/-- `encrypt_points2(points, eg, pub, rand)`. -/
def encrypt_points2 (points : List Coord) (eg : ElGamal) (pub : Coord) (rand : Int) :
    List (Coord × Coord) :=
  points.map (fun p1 => eg.enc2 p1 pub rand)

/-- The `assert ec.order(g) <= ec.q` step of `get_eg_g`: `none` models a
raised exception (caught by the scan), which happens when `order` itself
fails. -/
def egCandidateChk (ec : EC) : Option Int → Coord → Option Coord
  | none, _g1 => none
  | some o, g1 => if o ≤ ec.q then some g1 else none

/-- The `g, _ = ec.at(i)` step of `get_eg_g`: a failed `at` is caught by
the scan, a found point goes on to the order check. -/
def egCandidateOrd (ec : EC) : Option Coord → Option Coord
  | none => none
  | some g1 => egCandidateChk ec (ec.order g1) g1

/-- The body of the `get_eg_g` scan at one candidate `i`: the first point of
`ec.at(i)` when it exists and `ec.order` of it succeeds with value at most
`q`; any failure is caught and the scan continues. -/
def egCandidate (ec : EC) (i : ℕ) : Option Coord :=
  egCandidateOrd ec ((ec.pointAt (i : Int)).map (fun gp => gp.1))

/-- `get_eg_g(q, ec)`: scan `i = 0, .., q-1`; return the first point of
`ec.at(i)` whose order is computable and at most `q`. -/
def get_eg_g (q : Int) (ec : EC) : Option Coord :=
  (List.range q.toNat).findSome? (egCandidate ec)

theorem egcdGo_bezout (A B : Int) :
    ∀ fuel a b s0 s1 t0 t1, b.toNat < fuel →
      s0 * A + t0 * B = a → s1 * A + t1 * B = b →
      (egcdGo fuel a b s0 s1 t0 t1).1 * A + (egcdGo fuel a b s0 s1 t0 t1).2.1 * B =
        (egcdGo fuel a b s0 s1 t0 t1).2.2 := by
  intro fuel
  induction fuel with
  | zero => intro a b s0 s1 t0 t1 h; omega
  | succ f ih =>
    intro a b s0 s1 t0 t1 h h0 h1
    by_cases hb : 0 < b
    · simp only [egcdGo, if_pos hb]
      apply ih
      · have h2 : 0 ≤ a % b := Int.emod_nonneg a (by omega)
        have h3 : a % b < b := Int.emod_lt_of_pos a hb
        omega
      · exact h1
      · linear_combination h0 - a / b * h1 - Int.emod_def a b
    · simp only [egcdGo, if_neg hb]
      exact h0

theorem egcdGo_dvd :
    ∀ fuel a b s0 s1 t0 t1, 0 ≤ b → b.toNat < fuel →
      (egcdGo fuel a b s0 s1 t0 t1).2.2 ∣ a ∧ (egcdGo fuel a b s0 s1 t0 t1).2.2 ∣ b := by
  intro fuel
  induction fuel with
  | zero => intro a b s0 s1 t0 t1 _ h; omega
  | succ f ih =>
    intro a b s0 s1 t0 t1 hb0 h
    by_cases hb : 0 < b
    · simp only [egcdGo, if_pos hb]
      have h2 : 0 ≤ a % b := Int.emod_nonneg a (by omega)
      have h3 : a % b < b := Int.emod_lt_of_pos a hb
      have := ih b (a % b) s1 (s0 - a / b * s1) t1 (t0 - a / b * t1) h2 (by omega)
      refine ⟨?_, this.1⟩
      have h4 := Int.ediv_add_emod a b
      have h5 : a = b * (a / b) + a % b := h4.symm
      calc (egcdGo f b (a % b) s1 (s0 - a / b * s1) t1 (t0 - a / b * t1)).2.2 ∣
            b * (a / b) + a % b := dvd_add (Dvd.dvd.mul_right this.1 _) this.2
        _ = a := h4
    · simp only [egcdGo, if_neg hb]
      have : b = 0 := by omega
      exact ⟨dvd_refl a, this ▸ dvd_zero a⟩

theorem egcdGo_pos :
    ∀ fuel a b s0 s1 t0 t1, 0 < b → b.toNat < fuel →
      0 < (egcdGo fuel a b s0 s1 t0 t1).2.2 := by
  intro fuel
  induction fuel with
  | zero => intro a b s0 s1 t0 t1 _ h; omega
  | succ f ih =>
    intro a b s0 s1 t0 t1 hb h
    simp only [egcdGo, if_pos hb]
    have h2 : 0 ≤ a % b := Int.emod_nonneg a (by omega)
    have h3 : a % b < b := Int.emod_lt_of_pos a hb
    by_cases hr : 0 < a % b
    · exact ih b (a % b) _ _ _ _ hr (by omega)
    · have hr0 : a % b = 0 := by omega
      have hf : 0 < f := by omega
      obtain ⟨f', rfl⟩ : ∃ f', f = f' + 1 := ⟨f - 1, by omega⟩
      rw [hr0]
      simp only [egcdGo, if_neg (lt_irrefl 0)]
      exact hb

theorem egcd_bezout (a b : Int) (_hb : 0 ≤ b) :
    (egcd a b).1 * a + (egcd a b).2.1 * b = (egcd a b).2.2 :=
  egcdGo_bezout a b (b.toNat + 1) a b 1 0 0 1 (by omega) (by ring) (by ring)

theorem egcd_dvd (a b : Int) (hb : 0 ≤ b) :
    (egcd a b).2.2 ∣ a ∧ (egcd a b).2.2 ∣ b :=
  egcdGo_dvd (b.toNat + 1) a b 1 0 0 1 hb (by omega)

theorem egcd_pos (a b : Int) (hb : 0 < b) : 0 < (egcd a b).2.2 :=
  egcdGo_pos (b.toNat + 1) a b 1 0 0 1 hb (by omega)

theorem egcd_gcd_one (n q : Int) (hq : 0 < q) (h : Int.gcd n q = 1) :
    (egcd n q).2.2 = 1 := by
  have hd := egcd_dvd n q hq.le
  have hdg : (egcd n q).2.2 ∣ (Int.gcd n q : Int) := Int.dvd_gcd hd.1 hd.2
  rw [h] at hdg
  have hp := egcd_pos n q hq
  rcases Int.isUnit_iff.mp (isUnit_of_dvd_one hdg) with h1 | h1 <;> omega

theorem inv_mul_emod (n q : Int) (hq : 1 < q) (h : Int.gcd n q = 1) :
    n * inv n q % q = 1 := by
  have hb := egcd_bezout n q (by omega)
  rw [egcd_gcd_one n q (by omega) h] at hb
  have h1 : n * inv n q % q = n * (egcd n q).1 % q := by
    unfold inv
    conv_lhs => rw [Int.mul_emod]
    rw [Int.emod_emod_of_dvd _ dvd_rfl, ← Int.mul_emod]
  rw [h1]
  have h2 : n * (egcd n q).1 = 1 + q * (-(egcd n q).2.1) := by linarith
  rw [h2, Int.add_mul_emod_self_left]
  exact Int.emod_eq_of_lt (by omega) hq

theorem inv_range (n q : Int) (hq : 0 < q) : 0 ≤ inv n q ∧ inv n q < q :=
  ⟨Int.emod_nonneg _ (by omega), Int.emod_lt_of_pos _ hq⟩

def qn (ec : EC) : ℕ := ec.q.toNat

def ECW (ec : EC) : WeierstrassCurve.Affine (ZMod (qn ec)) :=
  { a₁ := 0, a₂ := 0, a₃ := 0, a₄ := (ec.a : ZMod (qn ec)), a₆ := (ec.b : ZMod (qn ec)) }

def toCoord (ec : EC) : (ECW ec).Point → Coord
  | WeierstrassCurve.Affine.Point.zero => ⟨0, 0⟩
  | @WeierstrassCurve.Affine.Point.some _ _ _ x y _ => ⟨(x.val : Int), (y.val : Int)⟩

structure ECok (ec : EC) : Prop where
  q2 : 2 < ec.q
  prime : Nat.Prime (qn ec)
  ha1 : 0 < ec.a
  ha2 : ec.a < ec.q
  hb1 : 0 < ec.b
  hb2 : ec.b < ec.q
  disc : (4 * ec.a ^ 3 + 27 * ec.b ^ 2) % ec.q ≠ 0

abbrev pointOk (ec : EC) (p : Coord) : Prop :=
  ec.is_valid p = true ∧ 0 ≤ p.x ∧ p.x < ec.q ∧ 0 ≤ p.y ∧ p.y < ec.q

theorem qn_cast (ec : EC) (h : 0 < ec.q) : ((qn ec : ℕ) : Int) = ec.q :=
  Int.toNat_of_nonneg h.le

theorem castEmod (ec : EC) (h : 0 < ec.q) (m : Int) :
    ((m % ec.q : Int) : ZMod (qn ec)) = (m : ZMod (qn ec)) := by
  rw [ZMod.intCast_eq_intCast_iff', qn_cast ec h]
  exact Int.emod_emod_of_dvd m dvd_rfl

theorem castValN (ec : EC) [NeZero (qn ec)] (z : ZMod (qn ec)) :
    ((z.val : ℕ) : ZMod (qn ec)) = z :=
  ZMod.natCast_rightInverse z

theorem castVal (ec : EC) [NeZero (qn ec)] (z : ZMod (qn ec)) :
    ((z.val : Int) : ZMod (qn ec)) = z := by
  push_cast
  exact castValN ec z

theorem val_lt' (ec : EC) [NeZero (qn ec)] (z : ZMod (qn ec)) : (z.val : Int) < ec.q ∧ 0 ≤ (z.val : Int) := by
  have h1 := ZMod.val_lt z
  have h2 : (0:Int) < ec.q := by
    have h3 := Nat.pos_of_ne_zero (NeZero.ne (qn ec))
    have h4 : qn ec = ec.q.toNat := rfl
    omega
  constructor
  · have : (z.val : Int) < ((qn ec : ℕ) : Int) := by exact_mod_cast h1
    rwa [qn_cast ec h2] at this
  · positivity

theorem repr_eq (ec : EC) [NeZero (qn ec)] (h : 0 < ec.q) {v : Int} {z : ZMod (qn ec)}
    (h0 : 0 ≤ v) (h1 : v < ec.q) (hc : (v : ZMod (qn ec)) = z) : v = (z.val : Int) := by
  have hv : v = ((v.toNat : ℕ) : Int) := (Int.toNat_of_nonneg h0).symm
  have hlt : v.toNat < qn ec := by unfold qn; omega
  rw [hv] at hc
  push_cast at hc
  rw [← hc, ZMod.val_cast_of_lt hlt, ← hv]


theorem gcd_one_of_not_dvd (ec : EC) (hp : Nat.Prime (qn ec)) (h2 : 0 < ec.q)
    {m : Int} (hm : ¬ ((qn ec : ℤ) ∣ m)) : Int.gcd m ec.q = 1 := by
  have hqa : ec.q.natAbs = qn ec := by
    have : qn ec = ec.q.toNat := rfl
    omega
  have hnd : ¬ (qn ec ∣ m.natAbs) := by
    intro hd
    apply hm
    have : (qn ec : ℤ).natAbs ∣ m.natAbs := by simpa using hd
    exact Int.natAbs_dvd_natAbs.mp this
  have hco : Nat.Coprime (qn ec) m.natAbs := (Nat.Prime.coprime_iff_not_dvd hp).mpr hnd
  have : Nat.gcd m.natAbs (qn ec) = 1 := Nat.Coprime.gcd_eq_one hco.symm
  unfold Int.gcd
  rw [hqa]
  exact this

theorem castInv (ec : EC) [NeZero (qn ec)] [Fact (Nat.Prime (qn ec))] (hp : Nat.Prime (qn ec)) (h2 : 1 < ec.q)
    {m : Int} (hm : (m : ZMod (qn ec)) ≠ 0) :
    ((inv m ec.q : Int) : ZMod (qn ec)) = (m : ZMod (qn ec))⁻¹ := by
  have hnd : ¬ ((qn ec : ℤ) ∣ m) := by
    intro hd
    exact hm ((ZMod.intCast_zmod_eq_zero_iff_dvd m (qn ec)).mpr hd)
  have hgcd : Int.gcd m ec.q = 1 := gcd_one_of_not_dvd ec hp (by omega) hnd
  have h1 := inv_mul_emod m ec.q h2 hgcd
  have h3 : ((m * inv m ec.q % ec.q : Int) : ZMod (qn ec)) = ((1 : Int) : ZMod (qn ec)) := by
    rw [h1]
  rw [castEmod ec (by omega)] at h3
  push_cast at h3
  exact mul_left_cancel₀ hm (by rw [h3, mul_inv_cancel₀ hm])

theorem ECW_a1 (ec : EC) : (ECW ec).a₁ = 0 := rfl

theorem ECW_a2 (ec : EC) : (ECW ec).a₂ = 0 := rfl

theorem ECW_a3 (ec : EC) : (ECW ec).a₃ = 0 := rfl

theorem ECW_a4 (ec : EC) : (ECW ec).a₄ = (ec.a : ZMod (qn ec)) := rfl

theorem ECW_a6 (ec : EC) : (ECW ec).a₆ = (ec.b : ZMod (qn ec)) := rfl

theorem ECW_negY (ec : EC) (x y : ZMod (qn ec)) : (ECW ec).negY x y = -y := by
  rw [WeierstrassCurve.Affine.negY, ECW_a1, ECW_a3]
  ring

theorem twoZ_ne_zero (ec : EC) (h2 : 2 < ec.q) (_hp : Nat.Prime (qn ec)) :
    (2 : ZMod (qn ec)) ≠ 0 := by
  intro h
  have h3 : ((2 : ℕ) : ZMod (qn ec)) = 0 := by exact_mod_cast h
  have hq : 2 < qn ec := by
    have : qn ec = ec.q.toNat := rfl
    omega
  haveI : NeZero (qn ec) := ⟨by omega⟩
  have hd : qn ec ∣ 2 := by
    rwa [ZMod.natCast_zmod_eq_zero_iff_dvd] at h3
  have := Nat.le_of_dvd (by norm_num) hd
  omega

theorem discW (ec : EC) (h : ECok ec) : (ECW ec).Δ ≠ 0 := by
  haveI : Fact (Nat.Prime (qn ec)) := ⟨h.prime⟩
  intro hz
  have hq0 : 0 < ec.q := by have := h.q2; omega
  have h16 : (2 : ZMod (qn ec)) ^ 4 ≠ 0 := pow_ne_zero 4 (twoZ_ne_zero ec h.q2 h.prime)
  have hΔ : (ECW ec).Δ = -(2 : ZMod (qn ec)) ^ 4 *
      ((4 * ec.a ^ 3 + 27 * ec.b ^ 2 : ℤ) : ZMod (qn ec)) := by
    rw [WeierstrassCurve.Δ, WeierstrassCurve.b₂, WeierstrassCurve.b₄, WeierstrassCurve.b₆,
      WeierstrassCurve.b₈, ECW_a1, ECW_a2, ECW_a3, ECW_a4, ECW_a6]
    push_cast
    ring
  rw [hΔ] at hz
  rcases mul_eq_zero.mp hz with hz1 | hz2
  · exact h16 (by rwa [neg_eq_zero] at hz1)
  · have hd : (qn ec : ℤ) ∣ (4 * ec.a ^ 3 + 27 * ec.b ^ 2) :=
      (ZMod.intCast_zmod_eq_zero_iff_dvd _ _).mp hz2
    rw [qn_cast ec hq0] at hd
    exact h.disc (Int.emod_eq_zero_of_dvd hd)

theorem equation_of_pointOk (ec : EC) (h2 : 2 < ec.q) {p : Coord}
    (hv : pointOk ec p) (hnz : p ≠ ec.zero) :
    (ECW ec).Equation ((p.x : ZMod (qn ec))) ((p.y : ZMod (qn ec))) := by
  rw [WeierstrassCurve.Affine.equation_iff, ECW_a1, ECW_a2, ECW_a3, ECW_a4, ECW_a6]
  have hval : p.y ^ 2 % ec.q = (p.x ^ 3 + ec.a * p.x + ec.b) % ec.q := by
    have h1 := hv.1
    rw [EC.is_valid, if_neg hnz] at h1
    exact of_decide_eq_true h1
  have hc : ((p.y ^ 2 % ec.q : ℤ) : ZMod (qn ec)) =
      (((p.x ^ 3 + ec.a * p.x + ec.b) % ec.q : ℤ) : ZMod (qn ec)) := by rw [hval]
  rw [castEmod ec (by omega), castEmod ec (by omega)] at hc
  push_cast at hc
  linear_combination hc

theorem zero_not_equation (ec : EC) (h : ECok ec) {x y : ZMod (qn ec)}
    (he : (ECW ec).Equation x y) (hx : x = 0) (hy : y = 0) : False := by
  subst hx hy
  rw [WeierstrassCurve.Affine.equation_iff, ECW_a1, ECW_a2, ECW_a3, ECW_a4, ECW_a6] at he
  have hb0 : ((ec.b : ℤ) : ZMod (qn ec)) = 0 := by
    linear_combination -he
  have hd : (qn ec : ℤ) ∣ ec.b := (ZMod.intCast_zmod_eq_zero_iff_dvd _ _).mp hb0
  rw [qn_cast ec (by have := h.q2; omega)] at hd
  have := Int.le_of_dvd h.hb1 hd
  have := h.hb2
  omega

theorem toCoord_some_ne_zero (ec : EC) (h : ECok ec) {x y : ZMod (qn ec)}
    (hns : (ECW ec).Nonsingular x y) :
    toCoord ec (WeierstrassCurve.Affine.Point.some hns) ≠ ec.zero := by
  haveI : NeZero (qn ec) := ⟨by have := h.q2; have : qn ec = ec.q.toNat := rfl; omega⟩
  intro hc
  rw [toCoord, EC.zero] at hc
  have hx : (x.val : ℤ) = 0 := congrArg Coord.x hc
  have hy : (y.val : ℤ) = 0 := congrArg Coord.y hc
  have hx0 : x = 0 := by
    have : x.val = 0 := by omega
    exact (ZMod.val_eq_zero x).mp this
  have hy0 : y = 0 := by
    have : y.val = 0 := by omega
    exact (ZMod.val_eq_zero y).mp this
  exact zero_not_equation ec h hns.1 hx0 hy0

theorem exists_point (ec : EC) (h : ECok ec) {p : Coord} (hv : pointOk ec p) :
    ∃ P : (ECW ec).Point, toCoord ec P = p := by
  haveI : NeZero (qn ec) := ⟨by have := h.q2; have : qn ec = ec.q.toNat := rfl; omega⟩
  by_cases hz : p = ec.zero
  · refine ⟨WeierstrassCurve.Affine.Point.zero, ?_⟩
    rw [toCoord, hz, EC.zero]
  · have he := equation_of_pointOk ec h.q2 hv hz
    have hns := (ECW ec).nonsingular_of_Δ_ne_zero he (discW ec h)
    refine ⟨WeierstrassCurve.Affine.Point.some hns, ?_⟩
    rw [toCoord]
    have hx : (((p.x : ZMod (qn ec))).val : ℤ) = p.x :=
      (repr_eq ec (by have := h.q2; omega) hv.2.1 hv.2.2.1 rfl).symm
    have hy : (((p.y : ZMod (qn ec))).val : ℤ) = p.y :=
      (repr_eq ec (by have := h.q2; omega) hv.2.2.2.1 hv.2.2.2.2 rfl).symm
    cases p
    simp only [Coord.mk.injEq]
    exact ⟨hx, hy⟩


theorem neg_sim (ec : EC) (h : ECok ec) (P : (ECW ec).Point) :
    ec.neg (toCoord ec P) = toCoord ec (-P) := by
  haveI : NeZero (qn ec) := ⟨by have := h.q2; have : qn ec = ec.q.toNat := rfl; omega⟩
  have hq0 : (0:ℤ) < ec.q := by have := h.q2; omega
  rcases P with _ | @⟨x, y, hns⟩
  · show ec.neg ⟨0, 0⟩ = toCoord ec (-(0 : (ECW ec).Point))
    have h1 : toCoord ec (-(0 : (ECW ec).Point)) = ⟨0, 0⟩ := rfl
    rw [h1, EC.neg]
    norm_num
  · show ec.neg ⟨(x.val : ℤ), (y.val : ℤ)⟩ =
      toCoord ec (-WeierstrassCurve.Affine.Point.some hns)
    rw [WeierstrassCurve.Affine.Point.neg_some]
    rw [EC.neg, toCoord]
    simp only [Coord.mk.injEq, true_and]
    have hcast : ((-(y.val : ℤ) % ec.q : ℤ) : ZMod (qn ec)) = (ECW ec).negY x y := by
      rw [castEmod ec hq0, ECW_negY]
      push_cast
      rw [castValN]
    exact repr_eq ec hq0 (Int.emod_nonneg _ (by omega)) (Int.emod_lt_of_pos _ hq0) hcast

theorem val_inj' (ec : EC) [NeZero (qn ec)] {z w : ZMod (qn ec)} :
    (z.val : ℤ) = (w.val : ℤ) ↔ z = w := by
  constructor
  · intro hvw
    exact ZMod.val_injective (qn ec) (by exact_mod_cast hvw)
  · intro hvw
    rw [hvw]

theorem val_zero_iff (ec : EC) [NeZero (qn ec)] {z : ZMod (qn ec)} :
    (z.val : ℤ) = 0 ↔ z = 0 := by
  rw [← ZMod.val_eq_zero]
  exact_mod_cast Iff.rfl

theorem add_formula_eq (ec : EC) {p1 p2 : Coord} (h1 : p1 ≠ ec.zero) (h2 : p2 ≠ ec.zero)
    (h3 : ¬(p1.x = p2.x ∧ (p1.y ≠ p2.y ∨ p1.y = 0))) (l : ℤ)
    (hl : l = (if p1.x = p2.x then (3 * p1.x * p1.x + ec.a) * inv (2 * p1.y) ec.q % ec.q
               else (p2.y - p1.y) * inv (p2.x - p1.x) ec.q % ec.q)) :
    ec.add p1 p2 = ⟨(l * l - p1.x - p2.x) % ec.q,
      (l * (p1.x - (l * l - p1.x - p2.x) % ec.q) - p1.y) % ec.q⟩ := by
  rw [EC.add, if_neg h1, if_neg h2, if_neg h3]
  dsimp only
  rw [← hl]

theorem slope_cast_dbl (ec : EC) (h : ECok ec) [NeZero (qn ec)] [Fact (Nat.Prime (qn ec))]
    {x1 y1 x2 y2 : ZMod (qn ec)} (hxx : x1 = x2) (hyv : y1 = y2) (hy0 : y1 ≠ 0) :
    (((3 * (x1.val : ℤ) * (x1.val : ℤ) + ec.a) * inv (2 * (y1.val : ℤ)) ec.q % ec.q : ℤ) :
      ZMod (qn ec)) = (ECW ec).slope x1 x2 y1 y2 := by
  have hq0 : (0:ℤ) < ec.q := by have := h.q2; omega
  have hy' : y1 ≠ (ECW ec).negY x2 y2 := by
    rw [ECW_negY, ← hyv]
    intro hcon
    have h2y : (2 : ZMod (qn ec)) * y1 = 0 := by linear_combination hcon
    rcases mul_eq_zero.mp h2y with hc | hc
    · exact twoZ_ne_zero ec h.q2 h.prime hc
    · exact hy0 hc
  rw [WeierstrassCurve.Affine.slope_of_Y_ne hxx hy']
  have hm : ((2 * (y1.val : ℤ) : ℤ) : ZMod (qn ec)) ≠ 0 := by
    push_cast
    rw [castValN]
    exact mul_ne_zero (twoZ_ne_zero ec h.q2 h.prime) hy0
  rw [castEmod ec hq0]
  push_cast
  rw [castInv ec h.prime (by have := h.q2; omega) hm]
  push_cast
  rw [castValN, castValN]
  have hden : y1 - (ECW ec).negY x1 y1 = 2 * y1 := by rw [ECW_negY]; ring
  rw [hden, ECW_a1, ECW_a2, ECW_a4, div_eq_mul_inv]
  ring

theorem slope_cast_chord (ec : EC) (h : ECok ec) [NeZero (qn ec)] [Fact (Nat.Prime (qn ec))]
    {x1 y1 x2 y2 : ZMod (qn ec)} (hxx : x1 ≠ x2) :
    ((((y2.val : ℤ) - (y1.val : ℤ)) * inv ((x2.val : ℤ) - (x1.val : ℤ)) ec.q % ec.q : ℤ) :
      ZMod (qn ec)) = (ECW ec).slope x1 x2 y1 y2 := by
  have hq0 : (0:ℤ) < ec.q := by have := h.q2; omega
  rw [WeierstrassCurve.Affine.slope_of_X_ne hxx]
  have hm : (((x2.val : ℤ) - (x1.val : ℤ) : ℤ) : ZMod (qn ec)) ≠ 0 := by
    push_cast
    rw [castValN, castValN]
    exact sub_ne_zero_of_ne (Ne.symm hxx)
  rw [castEmod ec hq0]
  push_cast
  rw [castInv ec h.prime (by have := h.q2; omega) hm]
  push_cast
  rw [castValN, castValN, castValN, castValN]
  have hsub : x1 - x2 = -(x2 - x1) := by ring
  have hne : x2 - x1 ≠ 0 := sub_ne_zero_of_ne (Ne.symm hxx)
  rw [div_eq_mul_inv, hsub, inv_neg]
  ring

theorem addX_cast (ec : EC) (h : ECok ec) [NeZero (qn ec)] [Fact (Nat.Prime (qn ec))]
    {x1 y1 x2 y2 : ZMod (qn ec)} (l : ℤ)
    (hls : ((l : ℤ) : ZMod (qn ec)) = (ECW ec).slope x1 x2 y1 y2) :
    (((l * l - (x1.val : ℤ) - (x2.val : ℤ)) % ec.q : ℤ) : ZMod (qn ec)) =
      (ECW ec).addX x1 x2 ((ECW ec).slope x1 x2 y1 y2) := by
  have hq0 : (0:ℤ) < ec.q := by have := h.q2; omega
  rw [castEmod ec hq0]
  push_cast
  rw [hls, castValN, castValN, WeierstrassCurve.Affine.addX, ECW_a1, ECW_a2]
  ring

theorem addY_cast (ec : EC) (h : ECok ec) [NeZero (qn ec)] [Fact (Nat.Prime (qn ec))]
    {x1 y1 x2 y2 : ZMod (qn ec)} (l : ℤ)
    (hls : ((l : ℤ) : ZMod (qn ec)) = (ECW ec).slope x1 x2 y1 y2) :
    (((l * ((x1.val : ℤ) - (l * l - (x1.val : ℤ) - (x2.val : ℤ)) % ec.q) - (y1.val : ℤ)) % ec.q :
      ℤ) : ZMod (qn ec)) =
      (ECW ec).addY x1 x2 y1 ((ECW ec).slope x1 x2 y1 y2) := by
  have hq0 : (0:ℤ) < ec.q := by have := h.q2; omega
  have hx3 := addX_cast ec h l hls
  rw [castEmod ec hq0]
  push_cast
  rw [hls, hx3, castValN, castValN]
  rw [WeierstrassCurve.Affine.addY, WeierstrassCurve.Affine.negAddY, ECW_negY]
  ring

theorem add_sim_sloped (ec : EC) (h : ECok ec) [NeZero (qn ec)] [Fact (Nat.Prime (qn ec))]
    {x1 y1 x2 y2 : ZMod (qn ec)} (h1 : (ECW ec).Nonsingular x1 y1)
    (h2 : (ECW ec).Nonsingular x2 y2)
    (hxy : x1 = x2 → y1 ≠ (ECW ec).negY x2 y2)
    (hC : ¬(((x1.val : ℤ) = (x2.val : ℤ)) ∧
      (((y1.val : ℤ) ≠ (y2.val : ℤ)) ∨ (y1.val : ℤ) = 0)))
    (l : ℤ)
    (hl : l = (if (x1.val : ℤ) = (x2.val : ℤ) then
        (3 * (x1.val : ℤ) * (x1.val : ℤ) + ec.a) * inv (2 * (y1.val : ℤ)) ec.q % ec.q
      else ((y2.val : ℤ) - (y1.val : ℤ)) * inv ((x2.val : ℤ) - (x1.val : ℤ)) ec.q % ec.q))
    (hls : ((l : ℤ) : ZMod (qn ec)) = (ECW ec).slope x1 x2 y1 y2) :
    ec.add ⟨(x1.val : ℤ), (y1.val : ℤ)⟩ ⟨(x2.val : ℤ), (y2.val : ℤ)⟩ =
      toCoord ec (WeierstrassCurve.Affine.Point.some h1 + WeierstrassCurve.Affine.Point.some h2) := by
  have hq0 : (0:ℤ) < ec.q := by have := h.q2; omega
  have hne1 : (⟨(x1.val : ℤ), (y1.val : ℤ)⟩ : Coord) ≠ ec.zero :=
    toCoord_some_ne_zero ec h h1
  have hne2 : (⟨(x2.val : ℤ), (y2.val : ℤ)⟩ : Coord) ≠ ec.zero :=
    toCoord_some_ne_zero ec h h2
  rw [WeierstrassCurve.Affine.Point.add_of_imp hxy]
  rw [add_formula_eq ec hne1 hne2 hC l hl]
  show (⟨(l * l - (x1.val : ℤ) - (x2.val : ℤ)) % ec.q,
    (l * ((x1.val : ℤ) - (l * l - (x1.val : ℤ) - (x2.val : ℤ)) % ec.q) - (y1.val : ℤ)) % ec.q⟩ :
      Coord) = ⟨(((ECW ec).addX x1 x2 ((ECW ec).slope x1 x2 y1 y2)).val : ℤ),
        (((ECW ec).addY x1 x2 y1 ((ECW ec).slope x1 x2 y1 y2)).val : ℤ)⟩
  simp only [Coord.mk.injEq]
  constructor
  · exact repr_eq ec hq0 (Int.emod_nonneg _ (by omega)) (Int.emod_lt_of_pos _ hq0)
      (addX_cast ec h l hls)
  · exact repr_eq ec hq0 (Int.emod_nonneg _ (by omega)) (Int.emod_lt_of_pos _ hq0)
      (addY_cast ec h l hls)

theorem add_sim (ec : EC) (h : ECok ec) [NeZero (qn ec)] [Fact (Nat.Prime (qn ec))]
    (P Q : (ECW ec).Point) :
    ec.add (toCoord ec P) (toCoord ec Q) = toCoord ec (P + Q) := by
  have hq0 : (0:ℤ) < ec.q := by have := h.q2; omega
  rcases P with _ | @⟨x1, y1, h1⟩
  · have hz : toCoord ec WeierstrassCurve.Affine.Point.zero = ec.zero := rfl
    rw [hz, EC.add, if_pos rfl, WeierstrassCurve.Affine.Point.zero_def, zero_add]
  · rcases Q with _ | @⟨x2, y2, h2⟩
    · have hz : toCoord ec WeierstrassCurve.Affine.Point.zero = ec.zero := rfl
      have hne1 : toCoord ec (WeierstrassCurve.Affine.Point.some h1) ≠ ec.zero :=
        toCoord_some_ne_zero ec h h1
      rw [hz, EC.add, if_neg hne1, if_pos rfl, WeierstrassCurve.Affine.Point.zero_def, add_zero]
    · show ec.add ⟨(x1.val : ℤ), (y1.val : ℤ)⟩ ⟨(x2.val : ℤ), (y2.val : ℤ)⟩ =
        toCoord ec (WeierstrassCurve.Affine.Point.some h1 + WeierstrassCurve.Affine.Point.some h2)
      by_cases hxv : (x1.val : ℤ) = (x2.val : ℤ)
      · have hxx : x1 = x2 := (val_inj' ec).mp hxv
        by_cases hyv : (y1.val : ℤ) = (y2.val : ℤ)
        · have hyy : y1 = y2 := (val_inj' ec).mp hyv
          by_cases hy0 : (y1.val : ℤ) = 0
          · have hy0' : y1 = 0 := (val_zero_iff ec).mp hy0
            have hyneg : y1 = (ECW ec).negY x2 y2 := by
              rw [ECW_negY, ← hyy, hy0']
              ring
            have hne1 : (⟨(x1.val : ℤ), (y1.val : ℤ)⟩ : Coord) ≠ ec.zero :=
              toCoord_some_ne_zero ec h h1
            have hne2 : (⟨(x2.val : ℤ), (y2.val : ℤ)⟩ : Coord) ≠ ec.zero :=
              toCoord_some_ne_zero ec h h2
            rw [WeierstrassCurve.Affine.Point.add_of_Y_eq hxx hyneg]
            have hzz : toCoord ec (0 : (ECW ec).Point) = ec.zero := rfl
            rw [hzz, EC.add, if_neg hne1, if_neg hne2, if_pos ⟨hxv, Or.inr hy0⟩]
          · have hy0' : y1 ≠ 0 := fun hcon => hy0 ((val_zero_iff ec).mpr hcon)
            have hxy : x1 = x2 → y1 ≠ (ECW ec).negY x2 y2 := by
              intro _ hcon
              rw [ECW_negY, ← hyy] at hcon
              have h2y : (2 : ZMod (qn ec)) * y1 = 0 := by linear_combination hcon
              rcases mul_eq_zero.mp h2y with hc | hc
              · exact twoZ_ne_zero ec h.q2 h.prime hc
              · exact hy0' hc
            have hC : ¬(((x1.val : ℤ) = (x2.val : ℤ)) ∧
                (((y1.val : ℤ) ≠ (y2.val : ℤ)) ∨ (y1.val : ℤ) = 0)) := by
              rintro ⟨-, hor⟩
              rcases hor with hne | hzv
              · exact hne hyv
              · exact hy0 hzv
            refine add_sim_sloped ec h h1 h2 hxy hC _ (by rw [if_pos hxv]) ?_
            exact slope_cast_dbl ec h hxx hyy hy0'
        · have hyy : y1 ≠ y2 := fun hcon => hyv ((val_inj' ec).mpr hcon)
          have hyneg : y1 = (ECW ec).negY x2 y2 :=
            (WeierstrassCurve.Affine.Y_eq_of_X_eq h1.1 h2.1 hxx).resolve_left hyy
          have hne1 : (⟨(x1.val : ℤ), (y1.val : ℤ)⟩ : Coord) ≠ ec.zero :=
            toCoord_some_ne_zero ec h h1
          have hne2 : (⟨(x2.val : ℤ), (y2.val : ℤ)⟩ : Coord) ≠ ec.zero :=
            toCoord_some_ne_zero ec h h2
          rw [WeierstrassCurve.Affine.Point.add_of_Y_eq hxx hyneg]
          have hzz : toCoord ec (0 : (ECW ec).Point) = ec.zero := rfl
          rw [hzz, EC.add, if_neg hne1, if_neg hne2, if_pos ⟨hxv, Or.inl hyv⟩]
      · have hxx : x1 ≠ x2 := fun hcon => hxv ((val_inj' ec).mpr hcon)
        have hxy : x1 = x2 → y1 ≠ (ECW ec).negY x2 y2 := fun hcon => absurd hcon hxx
        have hC : ¬(((x1.val : ℤ) = (x2.val : ℤ)) ∧
            (((y1.val : ℤ) ≠ (y2.val : ℤ)) ∨ (y1.val : ℤ) = 0)) := by
          rintro ⟨hcon, -⟩
          exact hxv hcon
        refine add_sim_sloped ec h h1 h2 hxy hC _ (by rw [if_neg hxv]) ?_
        exact slope_cast_chord ec h hxx


theorem mulGo_sim (ec : EC) (h : ECok ec) [NeZero (qn ec)] [Fact (Nat.Prime (qn ec))] :
    ∀ (fuel : Nat) (R M : (ECW ec).Point) (n : Int), 0 ≤ n → n.toNat ≤ fuel →
      mulGo ec fuel (toCoord ec R) (toCoord ec M) n = toCoord ec (R + n.toNat • M) := by
  intro fuel
  induction fuel with
  | zero =>
    intro R M n hn hf
    have : n.toNat = 0 := by omega
    rw [mulGo, this, zero_nsmul, add_zero]
  | succ f ih =>
    intro R M n hn hf
    by_cases hpos : 0 < n
    · rw [mulGo, if_pos hpos]
      have hR' : (if n % 2 = 1 then ec.add (toCoord ec R) (toCoord ec M) else toCoord ec R) =
          toCoord ec (R + (n % 2).toNat • M) := by
        by_cases hodd : n % 2 = 1
        · rw [if_pos hodd, hodd]
          show ec.add (toCoord ec R) (toCoord ec M) = toCoord ec (R + (1 : ℕ) • M)
          rw [one_nsmul]
          exact add_sim ec h R M
        · have heven : n % 2 = 0 := by omega
          rw [if_neg hodd, heven]
          show toCoord ec R = toCoord ec (R + (0 : ℕ) • M)
          rw [zero_nsmul, add_zero]
      rw [hR', add_sim ec h M M]
      have hM2 : M + M = (2 : ℕ) • M := (two_nsmul M).symm
      rw [hM2]
      have hrec := ih (R + (n % 2).toNat • M) ((2 : ℕ) • M) (n / 2) (by omega) (by omega)
      rw [hrec]
      rw [add_assoc]
      congr 1
      rw [← mul_nsmul, ← add_nsmul]
      have harith : (n % 2).toNat + 2 * (n / 2).toNat = n.toNat := by omega
      rw [harith]
    · rw [mulGo, if_neg hpos]
      have : n.toNat = 0 := by omega
      rw [this, zero_nsmul, add_zero]

theorem mul_sim (ec : EC) (h : ECok ec) [NeZero (qn ec)] [Fact (Nat.Prime (qn ec))]
    (M : (ECW ec).Point) (n : Int) (hn : 0 ≤ n) :
    ec.mul (toCoord ec M) n = toCoord ec (n.toNat • M) := by
  rw [EC.mul]
  have hz : ec.zero = toCoord ec 0 := rfl
  rw [hz, mulGo_sim ec h n.toNat 0 M n hn le_rfl, zero_add]

def naiveMul (ec : EC) (p : Coord) : Nat → Coord
  | 0 => ec.zero
  | k + 1 => ec.add (naiveMul ec p k) p

theorem naiveMul_sim (ec : EC) (h : ECok ec) [NeZero (qn ec)] [Fact (Nat.Prime (qn ec))]
    (M : (ECW ec).Point) (k : Nat) :
    naiveMul ec (toCoord ec M) k = toCoord ec (k • M) := by
  induction k with
  | zero =>
    rw [naiveMul, zero_nsmul]
    rfl
  | succ j ih =>
    rw [naiveMul, ih, add_sim ec h, succ_nsmul]

theorem mul_zero_eq (ec : EC) (p : Coord) : ec.mul p 0 = ec.zero := rfl

theorem mul_one_eq (ec : EC) (p : Coord) : ec.mul p 1 = p := by
  show mulGo ec 1 ec.zero p 1 = p
  rw [mulGo]
  norm_num
  rw [mulGo, EC.add, if_pos rfl]

theorem mul_nonpos_eq (ec : EC) (p : Coord) (n : Int) (hn : n ≤ 0) : ec.mul p n = ec.zero := by
  rw [EC.mul]
  have h0 : n.toNat = 0 := by omega
  rw [h0, mulGo]

theorem find?_range'_spec (f : ℕ → Bool) :
    ∀ (len s a : ℕ), (List.range' s len).find? f = some a →
      f a = true ∧ s ≤ a ∧ a < s + len ∧ ∀ j, s ≤ j → j < a → f j = false := by
  intro len
  induction len with
  | zero => intro s a hfind; simp [List.range'] at hfind
  | succ n ih =>
    intro s a hfind
    rw [List.range'_succ] at hfind
    by_cases hs : f s = true
    · rw [List.find?_cons_of_pos _ hs] at hfind
      obtain rfl : s = a := by injection hfind
      exact ⟨hs, le_rfl, by omega, fun j h1 h2 => by omega⟩
    · rw [List.find?_cons_of_neg _ hs] at hfind
      obtain ⟨hfa, hle, hlt, hmin⟩ := ih (s + 1) a hfind
      refine ⟨hfa, by omega, by omega, fun j h1 h2 => ?_⟩
      by_cases hj : j = s
      · subst hj
        simpa using hs
      · exact hmin j (by omega) h2

theorem find?_range'_none (f : ℕ → Bool) (len s : ℕ)
    (hnone : (List.range' s len).find? f = none) :
    ∀ j, s ≤ j → j < s + len → f j = false := by
  intro j h1 h2
  have hmem : j ∈ List.range' s len := by
    rw [List.mem_range']
    exact ⟨j - s, by omega, by omega⟩
  have := List.find?_eq_none.mp hnone j hmem
  simpa using this

theorem findSome?_congr {α β : Type} (f g : α → Option β) :
    ∀ (l : List α), (∀ a ∈ l, f a = g a) → l.findSome? f = l.findSome? g := by
  intro l
  induction l with
  | nil => intro _; rfl
  | cons a as ih =>
    intro hfg
    rw [List.findSome?_cons, List.findSome?_cons, hfg a (by simp)]
    cases g a with
    | none => exact ih (fun x hx => hfg x (by simp [hx]))
    | some b => rfl

theorem sqrt_some (n q y my : Int) (h : sqrt n q = some (y, my)) :
    y * y % q = n ∧ 1 ≤ y ∧ y ≤ q - 1 ∧ my = q - y ∧
      ∀ j : Int, 1 ≤ j → j < y → j * j % q ≠ n := by
  rw [sqrt] at h
  cases hf : (List.range' 1 (q - 1).toNat).find? (fun (i : ℕ) => (i : Int) * (i : Int) % q == n) with
  | none => rw [hf] at h; simp at h
  | some a =>
    rw [hf] at h
    simp only [Option.map_some'] at h
    obtain ⟨hy, hmy⟩ : ((a : Int) = y ∧ q - (a : Int) = my) := by
      constructor
      · exact congrArg Prod.fst (Option.some.inj h)
      · exact congrArg Prod.snd (Option.some.inj h)
    obtain ⟨hfa, hle, hlt, hmin⟩ := find?_range'_spec _ _ _ _ hf
    have hfa' : (a : Int) * a % q = n := by simpa using hfa
    have hq1 : 1 ≤ (q - 1).toNat := by omega
    refine ⟨by rw [← hy]; exact hfa', by omega, by omega, by omega, ?_⟩
    intro j h1 h2
    have hj : j = ((j.toNat : ℕ) : Int) := by omega
    have hfj := hmin j.toNat (by omega) (by omega)
    intro hcon
    rw [hj] at hcon
    simp only [beq_eq_false_iff_ne, ne_eq] at hfj
    exact hfj hcon

theorem sqrt_none_of_no_root (n q : Int) (hn : 0 ≤ n) (hn2 : n < q)
    (h : ¬ ∃ y : Int, y * y ≡ n [ZMOD q]) : sqrt n q = none := by
  by_contra hne
  obtain ⟨yy, hyy⟩ := Option.ne_none_iff_exists'.mp hne
  obtain ⟨hsq, h1, h2, h3, h4⟩ := sqrt_some n q yy.1 yy.2 (by rw [hyy])
  apply h
  refine ⟨yy.1, ?_⟩
  show yy.1 * yy.1 % q = n % q
  rw [hsq, Int.emod_eq_of_lt hn hn2]

theorem pointAt_some (ec : EC) {x : Int} {p1 p2 : Coord} (h : ec.pointAt x = some (p1, p2)) :
    p1.x = x ∧ p2.x = x ∧ 1 ≤ p1.y ∧ p1.y ≤ ec.q - 1 ∧ p2.y = ec.q - p1.y ∧
      p1.y * p1.y % ec.q = (x ^ 3 + ec.a * x + ec.b) % ec.q := by
  rw [EC.pointAt] at h
  cases hs : sqrt ((x ^ 3 + ec.a * x + ec.b) % ec.q) ec.q with
  | none => rw [hs] at h; simp at h
  | some yy =>
    rw [hs] at h
    simp only [Option.map_some'] at h
    obtain ⟨hsq, h1, h2, h3, _⟩ := sqrt_some _ _ yy.1 yy.2 (by rw [hs])
    have hp1 : p1 = ⟨x, yy.1⟩ := (congrArg Prod.fst (Option.some.inj h)).symm
    have hp2 : p2 = ⟨x, yy.2⟩ := (congrArg Prod.snd (Option.some.inj h)).symm
    subst hp1 hp2
    exact ⟨rfl, rfl, h1, h2, by simpa using h3, hsq⟩

theorem pointAt_valid (ec : EC) {x : Int} {p1 p2 : Coord}
    (h : ec.pointAt x = some (p1, p2)) :
    ec.is_valid p1 = true ∧ ec.is_valid p2 = true ∧ ec.neg p1 = p2 := by
  obtain ⟨hx1, hx2, hy1, hy2, hyq, hsq⟩ := pointAt_some ec h
  have hq1 : 1 ≤ ec.q := by omega
  refine ⟨?_, ?_, ?_⟩
  · rw [EC.is_valid]
    by_cases hz : p1 = ec.zero
    · rw [if_pos hz]
    · rw [if_neg hz, decide_eq_true_iff, hx1]
      calc p1.y ^ 2 % ec.q = p1.y * p1.y % ec.q := by ring_nf
        _ = (x ^ 3 + ec.a * x + ec.b) % ec.q := hsq
  · rw [EC.is_valid]
    by_cases hz : p2 = ec.zero
    · rw [if_pos hz]
    · rw [if_neg hz, decide_eq_true_iff, hx2, hyq]
      calc (ec.q - p1.y) ^ 2 % ec.q = (p1.y * p1.y + ec.q * (ec.q - 2 * p1.y)) % ec.q := by
            ring_nf
        _ = p1.y * p1.y % ec.q := Int.add_mul_emod_self_left (p1.y * p1.y) ec.q (ec.q - 2 * p1.y)
        _ = (x ^ 3 + ec.a * x + ec.b) % ec.q := hsq
  · rw [EC.neg]
    have hyy : -p1.y % ec.q = ec.q - p1.y := by
      have h5 : -p1.y % ec.q = (-p1.y + ec.q * 1) % ec.q :=
        (Int.add_mul_emod_self_left (-p1.y) ec.q 1).symm
      rw [h5]
      have h6 : -p1.y + ec.q * 1 = ec.q - p1.y := by ring
      rw [h6]
      exact Int.emod_eq_of_lt (by omega) (by omega)
    cases p2
    simp only [Coord.mk.injEq]
    constructor
    · rw [hx1, ← hx2]
    · rw [hyy]
      exact hyq.symm

theorem pointAt_pointOk (ec : EC) {x : Int} {p1 p2 : Coord} (hx0 : 0 ≤ x) (hx1 : x < ec.q)
    (h : ec.pointAt x = some (p1, p2)) : pointOk ec p1 ∧ pointOk ec p2 := by
  obtain ⟨ha1, ha2, hb1, hb2, hbq, _⟩ := pointAt_some ec h
  obtain ⟨hv1, hv2, _⟩ := pointAt_valid ec h
  exact ⟨⟨hv1, by omega, by omega, by omega, by omega⟩,
    ⟨hv2, by omega, by omega, by omega, by omega⟩⟩

theorem order_some (ec : EC) {g : Coord} {k : Int} (h : ec.order g = some k) :
    1 ≤ k ∧ k ≤ ec.q ∧ ec.mul g k = ec.zero ∧
      ∀ j : Int, 1 ≤ j → j < k → ec.mul g j ≠ ec.zero := by
  rw [EC.order] at h
  cases hf : (List.range' 1 ec.q.toNat).find? (fun (i : ℕ) => ec.mul g (i : Int) == ec.zero) with
  | none => rw [hf] at h; simp at h
  | some a =>
    rw [hf] at h
    simp only [Option.map_some'] at h
    obtain rfl : (a : Int) = k := Option.some.inj h
    obtain ⟨hfa, hle, hlt, hmin⟩ := find?_range'_spec _ _ _ _ hf
    have hmul : ec.mul g (a : Int) = ec.zero := by simpa using hfa
    refine ⟨by omega, by omega, hmul, ?_⟩
    intro j h1 h2 hcon
    have hj : j = ((j.toNat : ℕ) : Int) := by omega
    have hfj := hmin j.toNat (by omega) (by omega)
    rw [hj] at hcon
    simp only [beq_eq_false_iff_ne, ne_eq] at hfj
    exact hfj hcon

theorem order_none (ec : EC) {g : Coord} (h : ec.order g = none) :
    ∀ k : Int, 1 ≤ k → k ≤ ec.q → ec.mul g k ≠ ec.zero := by
  rw [EC.order] at h
  cases hf : (List.range' 1 ec.q.toNat).find? (fun (i : ℕ) => ec.mul g (i : Int) == ec.zero) with
  | some a => rw [hf] at h; simp at h
  | none =>
    intro k h1 h2 hcon
    have hfk := find?_range'_none _ _ _ hf k.toNat (by omega) (by omega)
    have hk : k = ((k.toNat : ℕ) : Int) := by omega
    rw [hk] at hcon
    simp only [beq_eq_false_iff_ne, ne_eq] at hfk
    exact hfk hcon

/-- C10: for every point `p` and every integer `k ≤ 0` (including all
negative `k`), `mul(p, k)` returns the identity element, because the
double-and-add loop body never executes; negative scalars behave exactly
like scalar `0` instead of failing. -/
theorem claim10_mul_nonpos (ec : EC) (p : Coord) (k : Int) (hk : k ≤ 0) :
    ec.mul p k = ec.zero :=
  mul_nonpos_eq ec p k hk

theorem claim10_mul_nonpos_witness :
    (-5 : Int) ≤ 0 ∧ (EC.mk 1 1 7).mul ⟨0, 1⟩ (-5) = (EC.mk 1 1 7).zero :=
  ⟨by decide, claim10_mul_nonpos (EC.mk 1 1 7) ⟨0, 1⟩ (-5) (by decide)⟩

/-- C2: for every valid plaintext point `plain`, valid public key `pub` and
non-negative `r`, `enc2` returns `(multiply(g, r), add(plain, multiply(pub, r)))`,
and the masking-only variant `enc` returns just `add(plain, multiply(pub, r))`. -/
theorem claim2_encrypt_shape (eg : ElGamal) (plain pub : Coord) (r : Int)
    (_hp : eg.ec.is_valid plain = true) (_hpub : eg.ec.is_valid pub = true) (_hr : 0 ≤ r) :
    eg.enc2 plain pub r = (eg.ec.mul eg.g r, eg.ec.add plain (eg.ec.mul pub r)) ∧
      eg.enc plain pub r = eg.ec.add plain (eg.ec.mul pub r) :=
  ⟨rfl, rfl⟩

theorem claim2_encrypt_shape_witness :
    (EC.mk 1 1 7).is_valid ⟨0, 1⟩ = true ∧ (EC.mk 1 1 7).is_valid ⟨2, 2⟩ = true ∧
      (0 : Int) ≤ 3 ∧
      ((ElGamal.mk (EC.mk 1 1 7) ⟨0, 1⟩).enc2 ⟨0, 1⟩ ⟨2, 2⟩ 3 =
          ((EC.mk 1 1 7).mul ⟨0, 1⟩ 3, (EC.mk 1 1 7).add ⟨0, 1⟩ ((EC.mk 1 1 7).mul ⟨2, 2⟩ 3)) ∧
        (ElGamal.mk (EC.mk 1 1 7) ⟨0, 1⟩).enc ⟨0, 1⟩ ⟨2, 2⟩ 3 =
          (EC.mk 1 1 7).add ⟨0, 1⟩ ((EC.mk 1 1 7).mul ⟨2, 2⟩ 3)) :=
  ⟨by decide, by decide, by decide,
    claim2_encrypt_shape (ElGamal.mk (EC.mk 1 1 7) ⟨0, 1⟩) ⟨0, 1⟩ ⟨2, 2⟩ 3
      (by decide) (by decide) (by decide)⟩

/-- C7 counterexample: at `n = 0`, `q = 5` we have `gcd(n, q) = 5 ≠ 1`, yet
`inverse` does not fail: it returns the value `0`, which is not a modular
inverse of `0`. -/
theorem claim7_counterexample :
    Int.gcd 0 5 ≠ 1 ∧ inv 0 5 = 0 ∧ ¬ (0 * inv 0 5 % 5 = 1) := by
  refine ⟨by decide, by decide, by decide⟩

/-- C7 (amended): `inverse(n, q)` never raises; whenever `gcd(n, q) = 1`
(and `q > 1`) it returns a value `s` in `[0, q)` with `n*s ≡ 1 (mod q)`;
for `gcd(n, q) ≠ 1` it returns `egcd(n, q)[0] % q`, which is not an
inverse. -/
theorem claim7_inverse (n q : Int) (hq : 1 < q) (h : Int.gcd n q = 1) :
    n * inv n q % q = 1 ∧ 0 ≤ inv n q ∧ inv n q < q :=
  ⟨inv_mul_emod n q hq h, (inv_range n q (by omega)).1, (inv_range n q (by omega)).2⟩

theorem claim7_inverse_witness :
    (1 : Int) < 7 ∧ Int.gcd 3 7 = 1 ∧
      (3 * inv 3 7 % 7 = 1 ∧ 0 ≤ inv 3 7 ∧ inv 3 7 < 7) :=
  ⟨by decide, by decide, claim7_inverse 3 7 (by decide) (by decide)⟩

/-- C5: for every `x < q` at which `pointAt` succeeds it returns exactly the
two points `(x, y)` and `(x, q - y)`, both satisfying `isValid`, and the
negation of the first equals the second; it fails (returns `none`) when
`ysq = (x^3 + a*x + b) % q` has no square root modulo `q`. -/
theorem claim5_pointAt (ec : EC) (hq : 2 < ec.q) (x : Int) (_hx : x < ec.q) :
    (∀ p1 p2 : Coord, ec.pointAt x = some (p1, p2) →
        p1.x = x ∧ p2.x = x ∧ p2.y = ec.q - p1.y ∧
          ec.is_valid p1 = true ∧ ec.is_valid p2 = true ∧ ec.neg p1 = p2) ∧
      ((¬ ∃ y : Int, y * y ≡ (x ^ 3 + ec.a * x + ec.b) % ec.q [ZMOD ec.q]) →
        ec.pointAt x = none) := by
  constructor
  · intro p1 p2 hsome
    obtain ⟨h1, h2, _, _, h5, _⟩ := pointAt_some ec hsome
    obtain ⟨hv1, hv2, hneg⟩ := pointAt_valid ec hsome
    exact ⟨h1, h2, h5, hv1, hv2, hneg⟩
  · intro hno
    have hs : sqrt ((x ^ 3 + ec.a * x + ec.b) % ec.q) ec.q = none :=
      sqrt_none_of_no_root _ _ (Int.emod_nonneg _ (by omega))
        (Int.emod_lt_of_pos _ (by omega)) hno
    rw [EC.pointAt, hs]
    rfl

theorem claim5_pointAt_witness :
    (2 : Int) < 7 ∧ (0 : Int) < 7 ∧
      ((∀ p1 p2 : Coord, (EC.mk 1 1 7).pointAt 0 = some (p1, p2) →
          p1.x = 0 ∧ p2.x = 0 ∧ p2.y = 7 - p1.y ∧
            (EC.mk 1 1 7).is_valid p1 = true ∧ (EC.mk 1 1 7).is_valid p2 = true ∧
            (EC.mk 1 1 7).neg p1 = p2) ∧
        ((¬ ∃ y : Int, y * y ≡ (0 ^ 3 + 1 * 0 + 1) % 7 [ZMOD 7]) →
          (EC.mk 1 1 7).pointAt 0 = none)) :=
  ⟨by decide, by decide, claim5_pointAt (EC.mk 1 1 7) (by decide) 0 (by decide)⟩

/-- C6: for a valid non-identity point `g`, `order(g)` returns the least
`k ≥ 1` with `mul(g, k) = identity`, scanning only `k ≤ q`; when it fails
(`none`), no `k` with `1 ≤ k ≤ q` satisfies `mul(g, k) = identity`. -/
theorem claim6_order (ec : EC) (g : Coord) (_hv : ec.is_valid g = true)
    (_hg : g ≠ ec.zero) :
    (∀ k : Int, ec.order g = some k →
        1 ≤ k ∧ k ≤ ec.q ∧ ec.mul g k = ec.zero ∧
          ∀ j : Int, 1 ≤ j → j < k → ec.mul g j ≠ ec.zero) ∧
      (ec.order g = none → ∀ k : Int, 1 ≤ k → k ≤ ec.q → ec.mul g k ≠ ec.zero) :=
  ⟨fun _ hk => order_some ec hk, fun hn => order_none ec hn⟩

theorem claim6_order_witness :
    (EC.mk 1 1 7).is_valid ⟨0, 1⟩ = true ∧ (⟨0, 1⟩ : Coord) ≠ (EC.mk 1 1 7).zero ∧
      ((∀ k : Int, (EC.mk 1 1 7).order ⟨0, 1⟩ = some k →
          1 ≤ k ∧ k ≤ 7 ∧ (EC.mk 1 1 7).mul ⟨0, 1⟩ k = (EC.mk 1 1 7).zero ∧
            ∀ j : Int, 1 ≤ j → j < k → (EC.mk 1 1 7).mul ⟨0, 1⟩ j ≠ (EC.mk 1 1 7).zero) ∧
        ((EC.mk 1 1 7).order ⟨0, 1⟩ = none →
          ∀ k : Int, 1 ≤ k → k ≤ 7 → (EC.mk 1 1 7).mul ⟨0, 1⟩ k ≠ (EC.mk 1 1 7).zero)) :=
  ⟨by decide, by decide, claim6_order (EC.mk 1 1 7) ⟨0, 1⟩ (by decide) (by decide)⟩

/-- C8: on the curve `(a, b, q) = (2, 2, 3)` no `x` carries a curve point,
so for the character `A` (code point 65) every `j` in the Koblitz window
fails; the code then returns `None` for that character and
`map_to_points_koblitz` places a bare `None` in its result list — no count
or list of skipped characters is produced for the caller. -/
theorem claim8_koblitz_silent_none :
    map_to_point_koblitz 65 (EC.mk 2 2 3) = none ∧
      map_to_points_koblitz [65] (EC.mk 2 2 3) = [none] := by
  refine ⟨by decide, by decide⟩

/-- C3: on a well-formed curve (prime `q > 2`, in-range coefficients,
non-zero discriminant), for every valid in-range point `p` and every
non-negative integer `k`, the double-and-add `mul(p, k)` equals the
`k`-fold repeated addition of `p` starting from the identity; in
particular `mul(p, 0) = identity` and `mul(p, 1) = p`. -/
theorem claim3_mul_matches_naive (ec : EC) (h : ECok ec) (p : Coord)
    (hp : pointOk ec p) (k : Int) (hk : 0 ≤ k) :
    ec.mul p k = naiveMul ec p k.toNat ∧ ec.mul p 0 = ec.zero ∧ ec.mul p 1 = p := by
  haveI : NeZero (qn ec) := ⟨by have := h.q2; have : qn ec = ec.q.toNat := rfl; omega⟩
  haveI : Fact (Nat.Prime (qn ec)) := ⟨h.prime⟩
  obtain ⟨P, hP⟩ := exists_point ec h hp
  refine ⟨?_, mul_zero_eq ec p, mul_one_eq ec p⟩
  rw [← hP, mul_sim ec h P k hk, naiveMul_sim ec h P k.toNat]

theorem claim3_mul_matches_naive_witness :
    pointOk (EC.mk 1 1 7) ⟨0, 1⟩ ∧ (0 : Int) ≤ 4 ∧
      ((EC.mk 1 1 7).mul ⟨0, 1⟩ 4 = naiveMul (EC.mk 1 1 7) ⟨0, 1⟩ ((4 : Int)).toNat ∧
        (EC.mk 1 1 7).mul ⟨0, 1⟩ 0 = (EC.mk 1 1 7).zero ∧
        (EC.mk 1 1 7).mul ⟨0, 1⟩ 1 = ⟨0, 1⟩) :=
  ⟨by decide, by decide,
    claim3_mul_matches_naive (EC.mk 1 1 7)
      ⟨by decide, by decide, by decide, by decide, by decide, by decide, by decide⟩
      ⟨0, 1⟩ (by decide) 4 (by decide)⟩

/-- C4: on a well-formed curve, point addition is commutative for all
valid in-range points, including the identity representation. -/
theorem claim4_add_comm (ec : EC) (h : ECok ec) (p1 p2 : Coord)
    (h1 : pointOk ec p1) (h2 : pointOk ec p2) :
    ec.add p1 p2 = ec.add p2 p1 := by
  haveI : NeZero (qn ec) := ⟨by have := h.q2; have : qn ec = ec.q.toNat := rfl; omega⟩
  haveI : Fact (Nat.Prime (qn ec)) := ⟨h.prime⟩
  obtain ⟨P, hP⟩ := exists_point ec h h1
  obtain ⟨Q, hQ⟩ := exists_point ec h h2
  rw [← hP, ← hQ, add_sim ec h P Q, add_sim ec h Q P, add_comm]

theorem claim4_add_comm_witness :
    pointOk (EC.mk 1 1 7) ⟨0, 1⟩ ∧ pointOk (EC.mk 1 1 7) ⟨2, 2⟩ ∧
      (EC.mk 1 1 7).add ⟨0, 1⟩ ⟨2, 2⟩ = (EC.mk 1 1 7).add ⟨2, 2⟩ ⟨0, 1⟩ :=
  ⟨by decide, by decide,
    claim4_add_comm (EC.mk 1 1 7)
      ⟨by decide, by decide, by decide, by decide, by decide, by decide, by decide⟩
      ⟨0, 1⟩ ⟨2, 2⟩ (by decide) (by decide)⟩

/-- C1: ElGamal round-trip — on a well-formed curve with valid in-range
base point `g`, for every valid in-range plaintext point `p`, private key
`priv` in `[1, n)` where `n = order(g)`, and non-negative nonce `r`,
decrypting the pair produced by `enc2` under the same `priv` returns `p`. -/
theorem claim1_elgamal_roundtrip (eg : ElGamal) (h : ECok eg.ec)
    (hg : pointOk eg.ec eg.g) (p : Coord) (hp : pointOk eg.ec p)
    (nn priv r : Int) (_hn : eg.n = some nn) (hpriv1 : 1 ≤ priv)
    (_hpriv2 : priv < nn) (hr : 0 ≤ r) :
    eg.dec (eg.enc2 p (eg.gen priv) r) priv = p := by
  haveI : NeZero (qn eg.ec) := ⟨by have := h.q2; have : qn eg.ec = eg.ec.q.toNat := rfl; omega⟩
  haveI : Fact (Nat.Prime (qn eg.ec)) := ⟨h.prime⟩
  obtain ⟨G, hG⟩ := exists_point eg.ec h hg
  obtain ⟨P, hP⟩ := exists_point eg.ec h hp
  rw [ElGamal.dec, ElGamal.enc2, ElGamal.gen]
  rw [← hG, ← hP]
  rw [mul_sim eg.ec h G priv (by omega)]
  rw [mul_sim eg.ec h G r hr]
  rw [mul_sim eg.ec h (priv.toNat • G) r hr]
  rw [add_sim eg.ec h P (r.toNat • priv.toNat • G)]
  rw [mul_sim eg.ec h (r.toNat • G) priv (by omega)]
  rw [neg_sim eg.ec h (priv.toNat • r.toNat • G)]
  rw [add_sim eg.ec h (P + r.toNat • priv.toNat • G) (-(priv.toNat • r.toNat • G))]
  congr 1
  rw [← mul_nsmul, ← mul_nsmul, Nat.mul_comm r.toNat priv.toNat]
  rw [add_neg_cancel_right]

theorem claim1_elgamal_roundtrip_witness :
    pointOk (EC.mk 1 1 7) ⟨0, 1⟩ ∧
      (ElGamal.mk (EC.mk 1 1 7) ⟨0, 1⟩).n = some 5 ∧ (1 : Int) ≤ 2 ∧ (2 : Int) < 5 ∧
      (0 : Int) ≤ 3 ∧
      (ElGamal.mk (EC.mk 1 1 7) ⟨0, 1⟩).dec
        ((ElGamal.mk (EC.mk 1 1 7) ⟨0, 1⟩).enc2 ⟨0, 1⟩
          ((ElGamal.mk (EC.mk 1 1 7) ⟨0, 1⟩).gen 2) 3) 2 = ⟨0, 1⟩ :=
  ⟨by decide, by decide, by decide, by decide, by decide,
    claim1_elgamal_roundtrip (ElGamal.mk (EC.mk 1 1 7) ⟨0, 1⟩)
      ⟨by decide, by decide, by decide, by decide, by decide, by decide, by decide⟩
      (by decide) ⟨0, 1⟩ (by decide) 5 2 3 (by decide) (by decide) (by decide) (by decide)⟩

theorem find?_range'_of (f : ℕ → Bool) :
    ∀ (len s a : ℕ), s ≤ a → a < s + len → f a = true →
      (∀ j, s ≤ j → j < a → f j = false) → (List.range' s len).find? f = some a := by
  intro len
  induction len with
  | zero => intro s a h1 h2; omega
  | succ n ih =>
    intro s a h1 h2 hfa hmin
    rw [List.range'_succ]
    by_cases hs : a = s
    · subst hs
      rw [List.find?_cons_of_pos _ hfa]
    · have hfs : f s = false := hmin s le_rfl (by omega)
      rw [List.find?_cons_of_neg _ (by rw [hfs]; simp)]
      exact ih (s + 1) a (by omega) (by omega) hfa (fun j hj1 hj2 => hmin j (by omega) hj2)

theorem toCoord_eq_zero (ec : EC) (h : ECok ec) (P : (ECW ec).Point)
    (hc : toCoord ec P = ec.zero) : P = 0 := by
  rcases P with _ | @⟨x, y, hns⟩
  · rfl
  · exact absurd hc (toCoord_some_ne_zero ec h hns)

theorem ecok_demo : ECok (EC.mk 9 7 4093) := by
  refine ⟨by norm_num, ?_, by norm_num, by norm_num, by norm_num, by norm_num, by decide⟩
  show Nat.Prime 4093
  norm_num

theorem order_demo : (EC.mk 9 7 4093).order ⟨1, 181⟩ = some 4093 := by
  haveI : NeZero (qn (EC.mk 9 7 4093)) := ⟨by decide⟩
  haveI : Fact (Nat.Prime (qn (EC.mk 9 7 4093))) := ⟨ecok_demo.prime⟩
  have hok : pointOk (EC.mk 9 7 4093) ⟨1, 181⟩ := by decide
  obtain ⟨G, hG⟩ := exists_point (EC.mk 9 7 4093) ecok_demo hok
  have hmulbig : (EC.mk 9 7 4093).mul ⟨1, 181⟩ ((4093 : ℕ) : ℤ) = (EC.mk 9 7 4093).zero := by
    decide
  have hsim := mul_sim (EC.mk 9 7 4093) ecok_demo G ((4093 : ℕ) : ℤ) (by positivity)
  rw [hG] at hsim
  have hGzero : (4093 : ℕ) • G = 0 := by
    apply toCoord_eq_zero (EC.mk 9 7 4093) ecok_demo
    have h4 : (((4093 : ℕ) : ℤ)).toNat = (4093 : ℕ) := Int.toNat_natCast 4093
    rw [h4] at hsim
    rw [← hsim]
    exact hmulbig
  have hfin : addOrderOf G ∣ 4093 := addOrderOf_dvd_of_nsmul_eq_zero hGzero
  have hGne : G ≠ 0 := by
    intro hcon
    rw [hcon] at hG
    have : toCoord (EC.mk 9 7 4093) (0 : (ECW (EC.mk 9 7 4093)).Point) = ⟨0, 0⟩ := rfl
    rw [this] at hG
    exact absurd hG (by decide)
  have horder : addOrderOf G = 4093 := by
    rcases Nat.Prime.eq_one_or_self_of_dvd (by norm_num) _ hfin with h1 | h1
    · exact absurd (AddMonoid.addOrderOf_eq_one_iff.mp h1) hGne
    · exact h1
  have hmin : ∀ j : ℕ, 1 ≤ j → j < 4093 →
      ¬ (EC.mk 9 7 4093).mul ⟨1, 181⟩ (j : ℤ) = (EC.mk 9 7 4093).zero := by
    intro j h1 h2 hcon
    have hms := mul_sim (EC.mk 9 7 4093) ecok_demo G (j : ℤ) (by positivity)
    rw [hG] at hms
    rw [hms] at hcon
    have hz : ((j : ℤ)).toNat • G = 0 := toCoord_eq_zero (EC.mk 9 7 4093) ecok_demo _ hcon
    have hdvd : addOrderOf G ∣ ((j : ℤ)).toNat := addOrderOf_dvd_iff_nsmul_eq_zero.mpr hz
    rw [horder, Int.toNat_natCast j] at hdvd
    have := Nat.le_of_dvd (by omega) hdvd
    omega
  rw [EC.order]
  have hq : (EC.mk 9 7 4093).q.toNat = 4093 := rfl
  have hfind : (List.range' 1 (EC.mk 9 7 4093).q.toNat).find?
      (fun (i : ℕ) => (EC.mk 9 7 4093).mul ⟨1, 181⟩ (i : Int) == (EC.mk 9 7 4093).zero) =
      some 4093 := by
    rw [hq]
    apply find?_range'_of _ 4093 1 4093 (by omega) (by omega)
    · show ((EC.mk 9 7 4093).mul ⟨1, 181⟩ ((4093 : ℕ) : Int) == (EC.mk 9 7 4093).zero) = true
      rw [hmulbig]
      exact beq_self_eq_true _
    · intro j hj1 hj2
      show ((EC.mk 9 7 4093).mul ⟨1, 181⟩ ((j : ℕ) : Int) == (EC.mk 9 7 4093).zero) = false
      simp only [beq_eq_false_iff_ne, ne_eq]
      exact hmin j hj1 hj2
  rw [hfind]
  rfl

theorem findSome?_cons_none {α β : Type} (f : α → Option β) (a : α) (l : List α)
    (h : f a = none) : (a :: l).findSome? f = l.findSome? f := by
  rw [List.findSome?_cons, h]

theorem findSome?_cons_some {α β : Type} (f : α → Option β) (a : α) (l : List α) {b : β}
    (h : f a = some b) : (a :: l).findSome? f = some b := by
  rw [List.findSome?_cons, h]

set_option maxRecDepth 200000 in
theorem egCandidate_demo_zero : egCandidate (EC.mk 9 7 4093) 0 = none := by decide

theorem egCandidate_demo_one : egCandidate (EC.mk 9 7 4093) 1 = some ⟨1, 181⟩ := by
  have hp1 : ((EC.mk 9 7 4093).pointAt ((1 : ℕ) : Int)).map (fun gp => gp.1) =
      some ⟨1, 181⟩ := by
    set_option maxRecDepth 10000 in decide
  rw [egCandidate, hp1]
  simp only [egCandidateOrd]
  rw [order_demo]
  decide

set_option maxRecDepth 40000 in
/-- C9: end-to-end on the curve `(9, 7, 4093)` — the base point found by
scanning `x = 0..4092` is `(1, 181)`; Koblitz-encoding `"HI"` (code points
72, 73, window `K = 20`) gives the points `(1441, 795)` and `(1461, 1681)`;
encrypting each with `enc2` under `pub = gen(5)` and nonce `15` and then
decrypting with `priv = 5` recovers the same points, whose x-coordinates
decode through `round(x/20)` back to the string `"HI"`. -/
theorem claim9_end_to_end :
    get_eg_g 4093 (EC.mk 9 7 4093) = some ⟨1, 181⟩ ∧
      map_to_points_koblitz [72, 73] (EC.mk 9 7 4093) =
        [some ⟨1441, 795⟩, some ⟨1461, 1681⟩] ∧
      (encrypt_points2 [⟨1441, 795⟩, ⟨1461, 1681⟩]
          (ElGamal.mk (EC.mk 9 7 4093) ⟨1, 181⟩)
          ((ElGamal.mk (EC.mk 9 7 4093) ⟨1, 181⟩).gen 5) 15).map
        (fun c => (ElGamal.mk (EC.mk 9 7 4093) ⟨1, 181⟩).dec c 5) =
        [⟨1441, 795⟩, ⟨1461, 1681⟩] ∧
      map_to_chars [1441, 1461] = "HI" := by
  refine ⟨?_, by decide, by decide, by decide⟩
  rw [get_eg_g]
  have hrange : List.range (4093 : ℤ).toNat = 0 :: 1 :: List.range' 2 4091 := by
    rw [List.range_eq_range']
    show List.range' 0 4093 = 0 :: 1 :: List.range' 2 4091
    rw [show (4093 : ℕ) = 4092 + 1 from by norm_num, List.range'_succ,
      show (4092 : ℕ) = 4091 + 1 from by norm_num, List.range'_succ]
  rw [hrange, findSome?_cons_none _ _ _ egCandidate_demo_zero,
    findSome?_cons_some _ _ _ egCandidate_demo_one]
